import Mathlib

/-
  Verification development for the planedict library
  (src/planedict/planedict.py): a dict-like facade (PlaneDict) over a
  nested dictionary, addressed by flat key paths.

  The Python store `self._dict` is modelled as an association list with
  the usual Python-dict operations (lookup, replace-in-place-or-append,
  delete). A stored value is either an opaque leaf, a raw nested dict
  (`Node.branch`), or a stored PlaneDict instance (`Node.pd`), which the
  source distinguishes with isinstance checks (dict vs self._type).
  Keys are an abstract type κ with decidable equality; this represents
  the atomic (non-iterable, non-tuple) Python keys, for which
  __check_path__ of a single key k yields the one-element path (k,).
-/

namespace Planedict

/-! ## Python-dict primitives on association lists -/

variable {κ : Type} [DecidableEq κ] {β : Type}

/-- Dict lookup `d[k]` (None when absent). -/
def alookup (k : κ) : List (κ × β) → Option β
  | [] => none
  | (k', v) :: rest => if k = k' then some v else alookup k rest

/-- Dict assignment `d[k] = v`: replace in place when the key exists
(dicts keep the original key object and its position), append otherwise. -/
def aset (k : κ) (v : β) : List (κ × β) → List (κ × β)
  | [] => [(k, v)]
  | (k', w) :: rest => if k = k' then (k', v) :: rest else (k', w) :: aset k v rest

/-- Dict deletion `del d[k]` for a present key: drop the entry. -/
def adel (k : κ) : List (κ × β) → List (κ × β)
  | [] => []
  | (k', w) :: rest => if k = k' then rest else (k', w) :: adel k rest

/-- No duplicate keys (always true of a Python dict; an invariant of
this association-list model). -/
def nodupA : List (κ × β) → Bool
  | [] => true
  | (k, _) :: rest => !(alookup k rest).isSome && nodupA rest

/-! ## The store: nested dict values -/

/-- A value stored inside the nested dict: an opaque leaf, a raw dict
(`branch`, an `isinstance(·, dict)` value), or a stored PlaneDict
facade (`pd`, an `isinstance(·, self._type)` value wrapping its own
`_dict`). -/
inductive Node (κ α : Type) where
  | leaf : α → Node κ α
  | branch : List (κ × Node κ α) → Node κ α
  | pd : List (κ × Node κ α) → Node κ α

/-- Errors raised by the path operations: `KeyError(k)` and the
`IndexError` raised by `p[0]` on an empty path tuple. -/
inductive PdErr (κ : Type) where
  | keyError : κ → PdErr κ
  | indexError : PdErr κ
deriving DecidableEq

/-- Is the value a raw dict? (`isinstance(v, dict)`). -/
def isBranchB : Node κ α → Bool
  | .branch _ => true
  | _ => false

/-- End of `__getitem__` (planedict.py lines 209-212): a raw dict result
is wrapped as `self._type(items)`, a fresh PlaneDict facade whose `_dict`
is a new dict holding the same entries (`__init__` copies the seq into a
freshly created `_factory()` dict); values are shared, so in this pure
model the wrapped content is the same association list. -/
def wrapTop {κ α : Type} : Node κ α → Node κ α
  | .branch l => .pd l
  | v => v

/-- The key-by-key descent of `__getitem__` (lines 202-207):
`items = items[key]`, where `items` must be a dict or a PlaneDict
(`isinstance(items, (dict, self._type))`), else `KeyError(key)`.
Indexing a stored PlaneDict with an atomic key k is a nested
`__getitem__` call with path `(k,)`, which looks k up in its `_dict`
and wraps a raw-dict result in a fresh facade (`wrapTop`). -/
def getitemLoop : Node κ α → List κ → Except (PdErr κ) (Node κ α)
  | items, [] => .ok items
  | .branch l, k :: rest =>
      match alookup k l with
      | some v => getitemLoop v rest
      | none => .error (.keyError k)
  | .pd l, k :: rest =>
      match alookup k l with
      | some v => getitemLoop (wrapTop v) rest
      | none => .error (.keyError k)
  | .leaf _, k :: _ => .error (.keyError k)

/-- `__getitem__(path)` on a facade over `store`, for an already
normalized path: descend, then wrap a raw-dict result. -/
def getitem (store : List (κ × Node κ α)) (path : List κ) :
    Except (PdErr κ) (Node κ α) :=
  (getitemLoop (.branch store) path).map wrapTop

/-- `set_key(d, p)` from `__setitem__` (lines 222-230), with the value
threaded through. The Python code mutates `d` in place; here the updated
dict is returned together with the exception, if any (`p[0]` raises
IndexError on an empty path; that is the only possible failure).
For a longer path: `d.setdefault(k, self._factory())` inserts an empty
dict when k is absent; a present non-dict value (leaf or stored facade)
is overwritten with a fresh empty dict; then recurse into `d[k]`. -/
def set_key (value : Node κ α) :
    List (κ × Node κ α) → List κ → List (κ × Node κ α) × Option (PdErr κ)
  | d, [] => (d, some .indexError)
  | d, [k] => (aset k value d, none)
  | d, k :: p =>
      let sub : List (κ × Node κ α) :=
        match alookup k d with
        | some (.branch s) => s
        | _ => []
      let r := set_key value sub p
      (aset k (.branch r.1) d, r.2)

/-- `__setitem__` on a normalized path. -/
def setitem (store : List (κ × Node κ α)) (path : List κ) (value : Node κ α) :
    List (κ × Node κ α) × Option (PdErr κ) :=
  set_key value store path

/-- `remove_key(d, p)` from `__delitem__` (lines 249-262). Returns the
state of `d` when the call finishes (normally or by exception), together
with either the raised error or the returned truthiness (`is_empty(d)`
after a deletion at this level, `None` — falsy — when the child did not
empty). The Python code checks `isinstance(d, dict)` before touching it
(a leaf or a stored facade raises `KeyError(k)`), looks up `d[k]`
(KeyError when absent), recurses, and deletes `d[k]` when the recursion
reports an emptied child. -/
def remove_key : Node κ α → List κ → Node κ α × Except (PdErr κ) Bool
  | d, [] => (d, .error .indexError)
  | d, [k] =>
      match d with
      | .branch l =>
          match alookup k l with
          | some _ => let l2 := adel k l; (.branch l2, .ok l2.isEmpty)
          | none => (.branch l, .error (.keyError k))
      | _ => (d, .error (.keyError k))
  | d, k :: p₁ :: p₂ =>
      match d with
      | .branch l =>
          match alookup k l with
          | some child =>
              match remove_key child (p₁ :: p₂) with
              | (child2, .error e) => (.branch (aset k child2 l), .error e)
              | (child2, .ok true) =>
                  let l2 := adel k (aset k child2 l)
                  (.branch l2, .ok l2.isEmpty)
              | (child2, .ok false) => (.branch (aset k child2 l), .ok false)
          | none => (.branch l, .error (.keyError k))
      | _ => (d, .error (.keyError k))

/-- `__delitem__` on a normalized path: run `remove_key` on the root
dict and discard the returned truthiness (the root is never removed from
anything). Returns the resulting store and the raised error, if any. -/
def delitem (store : List (κ × Node κ α)) (path : List κ) :
    List (κ × Node κ α) × Option (PdErr κ) :=
  match remove_key (.branch store) path with
  | (.branch l, .ok _) => (l, none)
  | (.branch l, .error e) => (l, some e)
  | (_, .ok _) => (store, none)        -- unreachable: remove_key keeps a branch a branch
  | (_, .error e) => (store, some e)   -- unreachable, same invariant

/-- `recurs_iter` from `__iter__` (lines 274-285): depth-first leaf
paths. Only raw dict values (`isinstance(v, dict)`) are recursed into;
leaves and stored facades yield the accumulated path. -/
def recursIter : List (κ × Node κ α) → List κ → List (List κ)
  | [], _ => []
  | (k, .branch l) :: rest, p => recursIter l (p ++ [k]) ++ recursIter rest p
  | (k, _) :: rest, p => (p ++ [k]) :: recursIter rest p

/-- `list(self)`: all leaf paths of the store. -/
def iterPaths (store : List (κ × Node κ α)) : List (List κ) :=
  recursIter store []

/-- `__len__`: number of leaf paths. -/
def lenPD (store : List (κ × Node κ α)) : Nat :=
  (iterPaths store).length

mutual
/-- Well-formedness of a stored value: every dict in it has no duplicate
keys (automatic for Python dicts, an invariant of this model). -/
def wfN : Node κ α → Bool
  | .leaf _ => true
  | .branch l => wfL l
  | .pd l => wfL l

/-- Well-formedness of a dict: keys are distinct and values well-formed. -/
def wfL : List (κ × Node κ α) → Bool
  | [] => true
  | (k, v) :: rest => !(alookup k rest).isSome && wfN v && wfL rest
end

/-- Pure descent through raw dicts only (no facade hops, no wrapping):
the value sitting at a path, used to state where set/delete touch the
tree. -/
def nodeAt : Node κ α → List κ → Option (Node κ α)
  | n, [] => some n
  | .branch l, k :: p =>
      match alookup k l with
      | some v => nodeAt v p
      | none => none
  | _, _ :: _ => none

/-- Boolean list-prefix test (used to state path overlap). -/
def prefB : List κ → List κ → Bool
  | [], _ => true
  | _ :: _, [] => false
  | a :: p, b :: q => decide (a = b) && prefB p q

/-- Two paths overlap when either is a prefix of the other. -/
def overlapB (p q : List κ) : Bool :=
  prefB p q || prefB q p

/-- `update` with another PlaneDict argument. `MutableMapping.update`
iterates the source mapping's keys — for a PlaneDict these are its leaf
paths — and performs `self[key] = other[key]` for each. `other[key]` is
the source's `__getitem__`; it cannot fail for a yielded leaf path (the
error arm below is unreachable and skips, matching that no exception
occurs). -/
def updStep (src : List (κ × Node κ α)) (acc : List (κ × Node κ α)) (p : List κ) :
    List (κ × Node κ α) :=
  match getitem src p with
  | .ok v => (set_key v acc p).1
  | .error _ => acc

def updateFromPd (target src : List (κ × Node κ α)) : List (κ × Node κ α) :=
  (iterPaths src).foldl (updStep src) target

/-- The failure condition of the `get` descent, written from the spec
(§4.2/§7): the walk reaches a Leaf while keys remain (failing with the
offending key), or indexes a map node (a Branch, or a stored facade
acting as one) with a key that is absent. Secondary definition used to
compare the implementation against the spec's wording. -/
def descentFailsWith : Node κ α → List κ → κ → Prop
  | .leaf _, k :: _, k' => k' = k
  | .branch l, k :: rest, k' =>
      match alookup k l with
      | some v => descentFailsWith v rest k'
      | none => k' = k
  | .pd l, k :: rest, k' =>
      match alookup k l with
      | some v => descentFailsWith v rest k'
      | none => k' = k
  | _, [], _ => False

/-- `update` with a raw (non-facade) mapping argument.
`MutableMapping.update` iterates the raw dict's top-level keys and
performs `self[key] = other[key]`: each top-level key is normalized to
the one-key path `(key,)` and its whole subtree is assigned. -/
def updateFromRaw (target raw : List (κ × Node κ α)) : List (κ × Node κ α) :=
  raw.foldl (fun acc kv => (set_key kv.2 acc [kv.1]).1) target

/-! ## Path normalization: `__check_path__` (planedict.py lines 317-341)

A path specification is a heterogeneous Python value: a text string, a
number, `None`, a tuple, or any other iterable (list, generator, ...)
whose elements are again path specifications. `PSpec.iter` stands for
the iterables that are neither strings nor tuples; `PSpec.tup` is a
tuple (iterable but deliberately not unfolded by `seq_iter`, so it can
serve as one opaque dict key). -/

inductive PSpec where
  | str : String → PSpec
  | num : Int → PSpec
  | noneV : PSpec
  | tup : List PSpec → PSpec
  | iter : List PSpec → PSpec

/-- Structural equality of path-spec values (Python `==` on keys). -/
def PSpec.beq : PSpec → PSpec → Bool
  | .str a, .str b => a == b
  | .num a, .num b => a == b
  | .noneV, .noneV => true
  | .tup a, .tup b => go a b
  | .iter a, .iter b => go a b
  | _, _ => false
where go : List PSpec → List PSpec → Bool
  | [], [] => true
  | x :: xs, y :: ys => PSpec.beq x y && go xs ys
  | _, _ => false

instance : DecidableEq PSpec := fun a b =>
  decidable_of_iff (PSpec.beq a b = true) (by
    have H : ∀ n (a b : PSpec), sizeOf a ≤ n → (PSpec.beq a b = true ↔ a = b) := by
      intro n
      induction n with
      | zero => intro a b h; cases a <;> simp at h
      | succ n ih =>
        have Hgo : ∀ xs ys : List PSpec, (∀ x ∈ xs, sizeOf x ≤ n) →
            (PSpec.beq.go xs ys = true ↔ xs = ys) := by
          intro xs
          induction xs with
          | nil => intro ys _; cases ys <;> simp [PSpec.beq.go]
          | cons x xs ihx =>
            intro ys hs
            cases ys with
            | nil => simp [PSpec.beq.go]
            | cons y ys =>
              simp only [PSpec.beq.go, Bool.and_eq_true, List.cons.injEq]
              rw [ih x y (hs x (List.mem_cons_self x xs)),
                  ihx ys (fun z hz => hs z (List.mem_cons_of_mem x hz))]
        intro a b h
        cases a <;> cases b <;> simp [PSpec.beq]
        case tup.tup xs ys =>
          refine Hgo xs ys (fun x hx => ?_)
          have h1 : sizeOf x < sizeOf xs := List.sizeOf_lt_of_mem hx
          have h2 : sizeOf (PSpec.tup xs) = 1 + sizeOf xs := by simp
          omega
        case iter.iter xs ys =>
          refine Hgo xs ys (fun x hx => ?_)
          have h1 : sizeOf x < sizeOf xs := List.sizeOf_lt_of_mem hx
          have h2 : sizeOf (PSpec.iter xs) = 1 + sizeOf xs := by simp
          omega
    exact H (sizeOf a) a b le_rfl)

/-- `seq_iter` (lines 327-336): walk the sequence; an element that is
iterable and neither a string nor a tuple is recursed into and its
results spliced in (`result += seq_iter(p)`); every other element is
appended as-is (`result.append(p)`). -/
def seq_iter : List PSpec → List PSpec
  | [] => []
  | .iter l :: rest => seq_iter l ++ seq_iter rest
  | p :: rest => p :: seq_iter rest

/-- `__check_path__(path)` (lines 338-341): a string, number or `None`
becomes the one-key tuple `(path,)`; anything else (tuples included) is
handed to `seq_iter`. -/
def check_path : PSpec → List PSpec
  | .str s => [.str s]
  | .num n => [.num n]
  | .noneV => [.noneV]
  | .tup l => seq_iter l
  | .iter l => seq_iter l

mutual
/-- Written from the spec (§4.1): the left-to-right depth-first
flattening of one element — recurse into an iterable that is neither a
text string nor a tuple, append anything else as a single key.
Secondary definition used to compare `__check_path__` against the
spec's wording. -/
def specFlatElem : PSpec → List PSpec
  | .iter l => specFlatList l
  | p => [p]

/-- Written from the spec (§4.1): flatten each element and splice the
results in order. -/
def specFlatList : List PSpec → List PSpec
  | [] => []
  | p :: rest => specFlatElem p ++ specFlatList rest
end

/-- Written from the spec (§4.1): an atomic scalar yields a length-1
path containing it unchanged; otherwise the input is an iterable of
path segments, flattened depth-first. -/
def specNormalize : PSpec → List PSpec
  | .str s => [.str s]
  | .num n => [.num n]
  | .noneV => [.noneV]
  | .tup l => specFlatList l
  | .iter l => specFlatList l

/-- Full `__getitem__`: normalize the path specification, then descend. -/
def pdGetFull {α : Type} (store : List (PSpec × Node PSpec α)) (spec : PSpec) :
    Except (PdErr PSpec) (Node PSpec α) :=
  getitem store (check_path spec)

/-- Full `__setitem__`: normalize, then `set_key`. -/
def pdSetFull {α : Type} (store : List (PSpec × Node PSpec α)) (spec : PSpec)
    (value : Node PSpec α) : List (PSpec × Node PSpec α) × Option (PdErr PSpec) :=
  setitem store (check_path spec) value

/-- Full `__delitem__`: normalize, then `remove_key`. -/
def pdDelFull {α : Type} (store : List (PSpec × Node PSpec α)) (spec : PSpec) :
    List (PSpec × Node PSpec α) × Option (PdErr PSpec) :=
  delitem store (check_path spec)

/-! ## Equality model: `__eq__` inherited from the Mapping ABC

PlaneDict inherits `__eq__` from `collections.MutableMapping`
(the standard library Mapping ABC):
`isinstance(other, Mapping) and dict(self) == dict(other)`.

`dict(F)` for a facade F is built from `F.keys()` (the leaf paths) and
`F[path]` for each, i.e. the flat path → leaf-value dict; `dict(d)` for
a raw dict is that dict. Because untyped Python compares a path-keyed
flat dict with an arbitrarily keyed raw dict, this part of the model
uses a universal value domain: hashable keys `PyK` (strings, ints,
tuples of keys — unhashable values cannot be dict keys) and values
`PyV` (strings, ints, tuples, raw dicts, stored facades). -/

inductive PyK where
  | kstr : String → PyK
  | kint : Int → PyK
  | ktup : List PyK → PyK

/-- Structural equality of keys (Python `==` on hashable keys). -/
def PyK.beq : PyK → PyK → Bool
  | .kstr a, .kstr b => a == b
  | .kint a, .kint b => a == b
  | .ktup a, .ktup b => go a b
  | _, _ => false
where go : List PyK → List PyK → Bool
  | [], [] => true
  | x :: xs, y :: ys => PyK.beq x y && go xs ys
  | _, _ => false

instance : DecidableEq PyK := fun a b =>
  decidable_of_iff (PyK.beq a b = true) (by
    have H : ∀ n (a b : PyK), sizeOf a ≤ n → (PyK.beq a b = true ↔ a = b) := by
      intro n
      induction n with
      | zero => intro a b h; cases a <;> simp at h
      | succ n ih =>
        have Hgo : ∀ xs ys : List PyK, (∀ x ∈ xs, sizeOf x ≤ n) →
            (PyK.beq.go xs ys = true ↔ xs = ys) := by
          intro xs
          induction xs with
          | nil => intro ys _; cases ys <;> simp [PyK.beq.go]
          | cons x xs ihx =>
            intro ys hs
            cases ys with
            | nil => simp [PyK.beq.go]
            | cons y ys =>
              simp only [PyK.beq.go, Bool.and_eq_true, List.cons.injEq]
              rw [ih x y (hs x (List.mem_cons_self x xs)),
                  ihx ys (fun z hz => hs z (List.mem_cons_of_mem x hz))]
        intro a b h
        cases a <;> cases b <;> simp [PyK.beq]
        case ktup.ktup xs ys =>
          refine Hgo xs ys (fun x hx => ?_)
          have h1 : sizeOf x < sizeOf xs := List.sizeOf_lt_of_mem hx
          have h2 : sizeOf (PyK.ktup xs) = 1 + sizeOf xs := by simp
          omega
    exact H (sizeOf a) a b le_rfl)

/-- Universal Python value for the equality model. `dict` is a raw
dict, `pd` a PlaneDict facade wrapping its `_dict`. -/
inductive PyV where
  | vstr : String → PyV
  | vint : Int → PyV
  | vtup : List PyV → PyV
  | dict : List (PyK × PyV) → PyV
  | pd : List (PyK × PyV) → PyV

mutual
/-- Number of stored facades inside a value (termination bookkeeping for
`pyEq`: each comparison step either unwraps a facade or structurally
shrinks). -/
def pdCount : PyV → Nat
  | .vstr _ => 0
  | .vint _ => 0
  | .vtup l => pdCountL l
  | .dict l => pdCountP l
  | .pd l => pdCountP l + 1

/-- Facade count of a list of values. -/
def pdCountL : List PyV → Nat
  | [] => 0
  | v :: rest => pdCount v + pdCountL rest

/-- Facade count of a dict's values. -/
def pdCountP : List (PyK × PyV) → Nat
  | [] => 0
  | kv :: rest => pdCount kv.2 + pdCountP rest
end

/-- `dict(F)` for a facade over the pairs `l`: the flat dict mapping
each leaf path (as a key tuple) to its leaf value, produced by the
`__iter__` depth-first walk (recursing into raw-dict values only)
combined with `F[path]` lookups. -/
def flattenP : List (PyK × PyV) → List PyK → List (PyK × PyV)
  | [], _ => []
  | (k, .dict m) :: rest, p => flattenP m (p ++ [k]) ++ flattenP rest p
  | (k, v) :: rest, p => (.ktup (p ++ [k]), v) :: flattenP rest p

theorem pdCountP_append (a b : List (PyK × PyV)) :
    pdCountP (a ++ b) = pdCountP a + pdCountP b := by
  induction a with
  | nil => simp [pdCountP]
  | cons kv rest ih => simp [pdCountP, ih]; omega

theorem pdCountP_flattenP (l : List (PyK × PyV)) (p : List PyK) :
    pdCountP (flattenP l p) = pdCountP l := by
  induction l, p using flattenP.induct with
  | case1 p => simp [flattenP, pdCountP]
  | case2 k m rest p ih1 ih2 => simp [flattenP, pdCountP_append, ih1, ih2, pdCountP, pdCount]
  | case3 k v rest p h ih => simp [flattenP, pdCountP, ih]

theorem alookup_bounds (b : List (PyK × PyV)) (k : PyK) (w : PyV)
    (h : alookup k b = some w) : pdCount w ≤ pdCountP b ∧ sizeOf w < sizeOf b := by
  induction b with
  | nil => simp [alookup] at h
  | cons kv rest ih =>
    obtain ⟨k', v⟩ := kv
    simp only [alookup] at h
    split at h
    · cases h
      constructor
      · simp [pdCountP] <;> omega
      · simp <;> omega
    · have := ih h
      constructor
      · simp [pdCountP] <;> omega
      · simp <;> omega

theorem lexHelp {a₁ b₁ a₂ b₂ : Nat} (h₁ : a₁ ≤ a₂) (h₂ : b₁ < b₂) :
    Prod.Lex (· < ·) (· < ·) (a₁, b₁) (a₂, b₂) := by
  rcases Nat.lt_or_ge a₁ a₂ with h | h
  · exact Prod.Lex.left _ _ h
  · have he : a₁ = a₂ := Nat.le_antisymm h₁ h
    subst he
    exact Prod.Lex.right _ h₂

mutual
/-- Python `==` over the universal domain. A facade compares through
the Mapping ABC: `isinstance(other, Mapping) and dict(self) ==
dict(other)` — its flat path dict against the other side's dict
(tuples, strings, ints are never Mappings, so those comparisons are
False). Raw dict equality is CPython's: equal length and every key of
the left found in the right with `==`-equal value. -/
def pyEq : PyV → PyV → Bool
  | .vstr a, .vstr b => a == b
  | .vint a, .vint b => a == b
  | .vtup a, .vtup b => tupEq a b
  | .dict a, .dict b => a.length == b.length && subDict a b
  | .pd a, .pd b =>
      (flattenP a []).length == (flattenP b []).length &&
        subDict (flattenP a []) (flattenP b [])
  | .pd a, .dict b => (flattenP a []).length == b.length && subDict (flattenP a []) b
  | .dict a, .pd b => a.length == (flattenP b []).length && subDict a (flattenP b [])
  | _, _ => false
termination_by a b => (pdCount a + pdCount b, sizeOf a + sizeOf b)
decreasing_by
  · exact lexHelp (by simp [pdCount]) (by simp; try omega)
  · exact lexHelp (by simp [pdCount]) (by simp; try omega)
  · apply Prod.Lex.left
    simp [pdCount, pdCountP_flattenP]
    try omega
  · apply Prod.Lex.left
    simp [pdCount, pdCountP_flattenP]
    try omega
  · apply Prod.Lex.left
    simp [pdCount, pdCountP_flattenP]
    try omega

/-- CPython dict equality, left side: every `(k, v)` of `a` has `k`
present in `b` with `==`-equal value. -/
def subDict : List (PyK × PyV) → List (PyK × PyV) → Bool
  | [], _ => true
  | (k, v) :: rest, b =>
      (match hkl : alookup k b with
       | some w => pyEq v w
       | none => false) && subDict rest b
termination_by a b => (pdCountP a + pdCountP b, sizeOf a + sizeOf b)
decreasing_by
  · have hb := alookup_bounds b k w hkl
    exact lexHelp (by simp [pdCountP] <;> omega) (by simp <;> omega)
  · exact lexHelp (by simp [pdCountP] <;> omega) (by simp <;> omega)

/-- Python tuple equality: same length, elementwise `==`. -/
def tupEq : List PyV → List PyV → Bool
  | [], [] => true
  | x :: xs, y :: ys => pyEq x y && tupEq xs ys
  | _, _ => false
termination_by a b => (pdCountL a + pdCountL b, sizeOf a + sizeOf b)
decreasing_by
  · exact lexHelp (by simp [pdCountL] <;> omega) (by simp <;> omega)
  · exact lexHelp (by simp [pdCountL] <;> omega) (by simp <;> omega)
end

/-- Option-level `==` of lookup results (both absent, or both present
and `==`-equal). -/
def optPyEqB : Option PyV → Option PyV → Bool
  | some v, some w => pyEq v w
  | none, none => true
  | _, _ => false

/-! ## Heap model for facade aliasing (C8)

`__getitem__` returning a Branch wraps it in `self._type(items)`, i.e.
`PlaneDict(items)`, whose `__init__` creates a fresh `_factory()` dict
and copies the entries of `items` into it. Whether that is a live view
or a shallow copy is a question about object identity, so this part of
the model makes dict identity explicit: every dict is a heap cell
addressed by a natural number, and a dict entry holds either a leaf
value or a reference to another dict cell. -/

/-- A dict entry on the heap: a leaf value or a reference to a dict. -/
inductive HVal (α : Type) where
  | leaf : α → HVal α
  | ref : Nat → HVal α

/-- The heap: dict contents per address, plus the next fresh address. -/
structure Heap (κ α : Type) where
  cells : List (Nat × List (κ × HVal α))
  next : Nat

/-- Contents of the dict at address `a`. -/
def hcell (h : Heap κ α) (a : Nat) : List (κ × HVal α) :=
  (alookup a h.cells).getD []

/-- In-place update of the dict at address `a`. -/
def hupd (h : Heap κ α) (a : Nat) (d : List (κ × HVal α)) : Heap κ α :=
  ⟨aset a d h.cells, h.next⟩

/-- Result of `__getitem__`: a leaf value, or a facade over the dict
cell at the given address. -/
inductive HRes (α : Type) where
  | val : α → HRes α
  | facade : Nat → HRes α

/-- The descent of `__getitem__` on the heap (read-only). -/
def hGetLoop (h : Heap κ α) : HVal α → List κ → Except (PdErr κ) (HVal α)
  | v, [] => .ok v
  | .ref a, k :: rest =>
      match alookup k (hcell h a) with
      | some v => hGetLoop h v rest
      | none => .error (.keyError k)
  | .leaf _, k :: _ => .error (.keyError k)

/-- `__getitem__` on the heap: descend from the root dict; a raw-dict
result is wrapped as `self._type(items)` — `__init__` allocates a fresh
dict (`self._dict = _factory()`) and copies the entries of `items` into
it (`self._dict.update(seq)`), a shallow copy sharing every nested
reference. -/
def getitemH (h : Heap κ α) (root : Nat) (path : List κ) :
    Except (PdErr κ) (Heap κ α × HRes α) :=
  match hGetLoop h (.ref root) path with
  | .error e => .error e
  | .ok (.leaf x) => .ok (h, .val x)
  | .ok (.ref a) => .ok (⟨h.cells ++ [(h.next, hcell h a)], h.next + 1⟩, .facade h.next)

/-- `set_key` on the heap, rooted at the dict cell `a`. A missing or
non-dict intermediate is replaced by a freshly allocated empty dict
(the model allocates only the dict that is kept; Python may also build
and discard a `_factory()` default, which no reference ever observes). -/
def hSetKey (v : HVal α) : Heap κ α → Nat → List κ → Heap κ α × Option (PdErr κ)
  | h, _, [] => (h, some .indexError)
  | h, a, [k] => (hupd h a (aset k v (hcell h a)), none)
  | h, a, k :: p₁ :: p₂ =>
      match alookup k (hcell h a) with
      | some (.ref b) => hSetKey v h b (p₁ :: p₂)
      | _ =>
          let b := h.next
          let h1 : Heap κ α := ⟨h.cells ++ [(b, [])], b + 1⟩
          let h2 := hupd h1 a (aset k (.ref b) (hcell h1 a))
          hSetKey v h2 b (p₁ :: p₂)

/-! # Theorems -/

/-! ## Association-list lemmas -/

section AssocLemmas

variable {κ : Type} [DecidableEq κ] {β : Type}

theorem alookup_aset_self (k : κ) (v : β) (l : List (κ × β)) :
    alookup k (aset k v l) = some v := by
  induction l with
  | nil => simp [aset, alookup]
  | cons kv rest ih =>
    obtain ⟨k', w⟩ := kv
    by_cases h : k = k' <;> simp [aset, alookup, h, ih]

theorem alookup_aset_ne {k k' : κ} (h : k ≠ k') (v : β) (l : List (κ × β)) :
    alookup k (aset k' v l) = alookup k l := by
  induction l with
  | nil => simp [aset, alookup, h]
  | cons kv rest ih =>
    obtain ⟨k₀, w⟩ := kv
    by_cases h0 : k' = k₀
    · subst h0
      simp [aset, alookup, h]
    · by_cases h1 : k = k₀ <;> simp [aset, alookup, h0, h1, ih]

theorem alookup_adel_ne {k k' : κ} (h : k ≠ k') (l : List (κ × β)) :
    alookup k (adel k' l) = alookup k l := by
  induction l with
  | nil => simp [adel]
  | cons kv rest ih =>
    obtain ⟨k₀, w⟩ := kv
    by_cases h0 : k' = k₀
    · subst h0
      simp [adel, alookup, h]
    · by_cases h1 : k = k₀ <;> simp [adel, alookup, h0, h1, ih]

theorem alookup_adel_self (k : κ) (l : List (κ × β)) (hnd : nodupA l = true) :
    alookup k (adel k l) = none := by
  induction l with
  | nil => simp [adel, alookup]
  | cons kv rest ih =>
    obtain ⟨k₀, w⟩ := kv
    simp only [nodupA, Bool.and_eq_true, Bool.not_eq_true'] at hnd
    by_cases h0 : k = k₀
    · subst h0
      simp only [adel, if_pos rfl]
      exact Option.not_isSome_iff_eq_none.mp (by simp [hnd.1])
    · simp [adel, alookup, h0, ih hnd.2]

theorem aset_self {k : κ} {v : β} {l : List (κ × β)} (h : alookup k l = some v) :
    aset k v l = l := by
  induction l with
  | nil => simp [alookup] at h
  | cons kv rest ih =>
    obtain ⟨k₀, w⟩ := kv
    simp only [alookup] at h
    split at h
    · rename_i h0
      cases h
      subst h0
      simp [aset]
    · rename_i h0
      simp [aset, h0, ih h]

theorem alookup_mem {k : κ} {v : β} {l : List (κ × β)} (h : alookup k l = some v) :
    (k, v) ∈ l := by
  induction l with
  | nil => simp [alookup] at h
  | cons kv rest ih =>
    obtain ⟨k₀, w⟩ := kv
    simp only [alookup] at h
    split at h
    · rename_i h0
      cases h
      subst h0
      simp
    · exact List.mem_cons_of_mem _ (ih h)

theorem mem_alookup {k : κ} {v : β} {l : List (κ × β)} (hnd : nodupA l = true)
    (h : (k, v) ∈ l) : alookup k l = some v := by
  induction l with
  | nil => simp at h
  | cons kv rest ih =>
    obtain ⟨k₀, w⟩ := kv
    simp only [nodupA, Bool.and_eq_true, Bool.not_eq_true'] at hnd
    rcases List.mem_cons.mp h with he | hm
    · cases he
      simp [alookup]
    · by_cases h0 : k = k₀
      · subst h0
        have hr : alookup k rest = some v := ih hnd.2 hm
        simp [hr] at hnd
      · simp [alookup, h0, ih hnd.2 hm]

theorem nodupA_aset (k : κ) (v : β) {l : List (κ × β)} (hnd : nodupA l = true) :
    nodupA (aset k v l) = true := by
  induction l with
  | nil => simp [aset, nodupA, alookup]
  | cons kv rest ih =>
    obtain ⟨k₀, w⟩ := kv
    simp only [nodupA, Bool.and_eq_true, Bool.not_eq_true'] at hnd
    by_cases h0 : k = k₀
    · subst h0
      simp [aset, nodupA, hnd.1, hnd.2]
    · simp only [aset, if_neg h0, nodupA, Bool.and_eq_true, Bool.not_eq_true']
      refine ⟨?_, ih hnd.2⟩
      rw [alookup_aset_ne (fun he => h0 he.symm) v rest]
      exact hnd.1

theorem alookup_isSome_adel (k k' : κ) (l : List (κ × β)) :
    (alookup k (adel k' l)).isSome = true → (alookup k l).isSome = true := by
  intro h
  by_cases h0 : k = k'
  · subst h0
    induction l with
    | nil => simp [adel, alookup] at h
    | cons kv rest ih =>
      obtain ⟨k₀, w⟩ := kv
      by_cases h1 : k = k₀
      · subst h1
        simp [alookup]
      · simp only [adel, if_neg h1] at h
        simp only [alookup, if_neg h1] at h ⊢
        exact ih h
  · rwa [alookup_adel_ne h0] at h

theorem nodupA_adel (k : κ) {l : List (κ × β)} (hnd : nodupA l = true) :
    nodupA (adel k l) = true := by
  induction l with
  | nil => simp [adel, nodupA]
  | cons kv rest ih =>
    obtain ⟨k₀, w⟩ := kv
    simp only [nodupA, Bool.and_eq_true, Bool.not_eq_true'] at hnd
    by_cases h0 : k = k₀
    · subst h0
      simp only [adel, if_pos rfl]
      exact hnd.2
    · simp only [adel, if_neg h0, nodupA, Bool.and_eq_true, Bool.not_eq_true']
      refine ⟨?_, ih hnd.2⟩
      by_cases hs : (alookup k₀ (adel k rest)).isSome = true
      · have hcontra := alookup_isSome_adel k₀ k rest hs
        simp [hnd.1] at hcontra
      · simpa using hs

end AssocLemmas

/-! ## Delete: failure leaves the store untouched (C10), and pruning (C2) -/

section NodeLemmas

variable {κ α : Type} [DecidableEq κ]

theorem remove_key_err (p : List κ) :
    ∀ (d : Node κ α) (e : PdErr κ), (remove_key d p).2 = .error e →
      (remove_key d p).1 = d := by
  induction p with
  | nil => intro d e _; rfl
  | cons k tail ih =>
    intro d e h
    cases tail with
    | nil =>
      cases d with
      | leaf a => rfl
      | pd l => rfl
      | branch l =>
        simp only [remove_key] at h ⊢
        cases halk : alookup k l with
        | some v => simp [halk] at h
        | none => simp [halk]
    | cons p₁ p₂ =>
      cases d with
      | leaf a => rfl
      | pd l => rfl
      | branch l =>
        simp only [remove_key] at h ⊢
        cases halk : alookup k l with
        | none => simp [halk]
        | some child =>
          simp only [halk] at h ⊢
          cases hrec : remove_key child (p₁ :: p₂) with
          | mk child2 r =>
            cases r with
            | error e' =>
              have h1 : child2 = child := by
                have := ih child e' (by rw [hrec])
                rw [hrec] at this
                exact this
              subst h1
              simp [hrec, aset_self halk]
            | ok b =>
              cases b <;> simp [hrec] at h

/-- Claim C10: delete is atomic on failure. `remove_key` resolves the
full path before performing any removal, so when `__delitem__` raises,
the store is exactly as it was before the call. -/
theorem delete_atomic_on_failure (store : List (κ × Node κ α)) (path : List κ)
    (h : (delitem store path).2 ≠ none) : (delitem store path).1 = store := by
  unfold delitem
  cases hrk : remove_key (Node.branch store) path with
  | mk d' r =>
    have herr := remove_key_err path (Node.branch store)
    cases r with
    | ok b =>
      cases d' with
      | branch l =>
        unfold delitem at h
        rw [hrk] at h
        simp at h
      | leaf a => rfl
      | pd l => rfl
    | error e =>
      have h1 : d' = Node.branch store := by
        have := herr e (by rw [hrk])
        rw [hrk] at this
        exact this
      subst h1
      rfl

/-- Witness for C10 at a concrete input: deleting a missing key from
the empty store raises and leaves the store empty. -/
theorem delete_atomic_on_failure_witness :
    (delitem ([] : List (Nat × Node Nat Nat)) [1]).1 = [] :=
  delete_atomic_on_failure [] [1] (by decide)

end NodeLemmas

/-! ## Set then get (C1) -/

section SetGet

variable {κ α : Type} [DecidableEq κ]

theorem wrapTop_nonbranch {v : Node κ α} (hv : isBranchB v = false) :
    wrapTop v = v := by
  cases v with
  | leaf a => rfl
  | pd l => rfl
  | branch l => simp [isBranchB] at hv

theorem set_key_resolves (v : Node κ α) :
    ∀ (p : List κ), p ≠ [] → ∀ d, (set_key v d p).2 = none ∧
      getitemLoop (.branch (set_key v d p).1) p = .ok v := by
  intro p
  induction p with
  | nil => intro h; exact absurd rfl h
  | cons k tail ih =>
    intro _ d
    cases tail with
    | nil =>
      refine ⟨rfl, ?_⟩
      simp [set_key, getitemLoop, alookup_aset_self]
    | cons p₁ p₂ =>
      have ihr := ih (by simp)
        (match alookup k d with
         | some (.branch s) => s
         | _ => [])
      refine ⟨ihr.1, ?_⟩
      simp only [set_key, getitemLoop, alookup_aset_self]
      exact ihr.2

/-- Counterexample to claim C1 as stated: for a raw-dict value V,
`set(P, V)` followed by `get(P)` does not return V — it returns a fresh
facade wrapping V (lines 209-210 of `__getitem__`), which is a
different object and a different kind of value. -/
theorem set_then_get_counterexample :
    getitem (setitem ([] : List (Nat × Node Nat Nat)) [1]
        (.branch [(2, .leaf 3)])).1 [1] = .ok (.pd [(2, .leaf 3)]) ∧
      (Node.pd [(2, .leaf 3)] : Node Nat Nat) ≠ .branch [(2, .leaf 3)] :=
  ⟨rfl, fun h => Node.noConfusion h⟩

/-- Claim C1, amended: for every valid non-empty path P and every value
V that is not a raw dict (a leaf value, or a stored facade), performing
`set(store, P, V)` succeeds and a following `get(store, P)` returns V
itself; a raw-dict value is returned wrapped in a fresh facade instead. -/
theorem set_then_get (store : List (κ × Node κ α)) (path : List κ) (v : Node κ α)
    (hp : path ≠ []) (hv : isBranchB v = false) :
    (setitem store path v).2 = none ∧
      getitem (setitem store path v).1 path = .ok v := by
  have h := set_key_resolves v path hp store
  refine ⟨h.1, ?_⟩
  unfold getitem setitem
  unfold setitem at h
  rw [h.2]
  simp [Except.map, wrapTop_nonbranch hv]

/-- Witness for C1 (amended) at a concrete input. -/
theorem set_then_get_witness :
    (setitem ([] : List (Nat × Node Nat Nat)) [1, 2] (.leaf 5)).2 = none ∧
      getitem (setitem ([] : List (Nat × Node Nat Nat)) [1, 2] (.leaf 5)).1 [1, 2]
        = .ok (.leaf 5) :=
  set_then_get [] [1, 2] (.leaf 5) (by decide) rfl

end SetGet

/-! ## The get descent: stored facades and failure shape (C5, C9) -/

section GetDescent

variable {κ α : Type} [DecidableEq κ]

theorem wrapLoop_pd_branch (p : List κ) :
    ∀ (l : List (κ × Node κ α)),
      (getitemLoop (.pd l) p).map wrapTop = (getitemLoop (.branch l) p).map wrapTop := by
  induction p with
  | nil => intro l; rfl
  | cons k rest ih =>
    intro l
    simp only [getitemLoop]
    cases halk : alookup k l with
    | none => rfl
    | some v =>
      cases v with
      | branch m => exact ih m
      | leaf a => rfl
      | pd m => rfl

theorem exceptMap_err_iff {ε σ τ : Type} (x y : Except ε σ) (f : σ → τ)
    (h : x.map f = y.map f) (e : ε) : x = .error e ↔ y = .error e := by
  cases x <;> cases y <;> simp_all [Except.map]

theorem loop_err_iff (p : List κ) :
    ∀ (n : Node κ α) (k : κ),
      getitemLoop n p = .error (.keyError k) ↔ descentFailsWith n p k := by
  induction p with
  | nil =>
    intro n k
    simp only [getitemLoop, descentFailsWith]
    constructor
    · intro h; cases h
    · intro h; cases n <;> simp [descentFailsWith] at h
  | cons k₀ rest ih =>
    intro n k
    cases n with
    | leaf a =>
      simp only [getitemLoop, descentFailsWith]
      constructor
      · intro h
        injection h with h
        injection h with h
        exact h.symm
      · intro h; subst h; rfl
    | branch l =>
      simp only [getitemLoop, descentFailsWith]
      cases halk : alookup k₀ l with
      | none =>
        constructor
        · intro h
          injection h with h
          injection h with h
          exact h.symm
        · intro h; subst h; rfl
      | some v => exact ih v k
    | pd l =>
      simp only [getitemLoop, descentFailsWith]
      cases halk : alookup k₀ l with
      | none =>
        constructor
        · intro h
          injection h with h
          injection h with h
          exact h.symm
        · intro h; subst h; rfl
      | some v =>
        have hwrap : getitemLoop (wrapTop v) rest = .error (.keyError k) ↔
            getitemLoop v rest = .error (.keyError k) := by
          cases v with
          | branch m => exact exceptMap_err_iff _ _ _ (wrapLoop_pd_branch rest m) _
          | leaf a => exact Iff.rfl
          | pd m => exact Iff.rfl
        exact hwrap.trans (ih v k)

theorem loop_no_indexError (p : List κ) :
    ∀ (n : Node κ α), getitemLoop n p ≠ .error .indexError := by
  induction p with
  | nil => intro n h; simp [getitemLoop] at h
  | cons k₀ rest ih =>
    intro n h
    cases n with
    | leaf a => cases h
    | branch l =>
      simp only [getitemLoop] at h
      cases halk : alookup k₀ l with
      | none => rw [halk] at h; cases h
      | some v => rw [halk] at h; exact ih v h
    | pd l =>
      simp only [getitemLoop] at h
      cases halk : alookup k₀ l with
      | none => rw [halk] at h; cases h
      | some v => rw [halk] at h; exact ih (wrapTop v) h

theorem getitem_err_iff (store : List (κ × Node κ α)) (p : List κ) (e : PdErr κ) :
    getitem store p = .error e ↔ getitemLoop (.branch store) p = .error e := by
  unfold getitem
  cases getitemLoop (.branch store) p <;> simp [Except.map]

/-- Claim C5: `get` fails with a `KeyError` exactly when the descent
either reaches a leaf while keys remain or indexes a dict (or a stored
facade acting as one) with an absent key, in both cases carrying the
offending key; it raises nothing else, and when no such failure point
exists along the path it returns a value. -/
theorem get_failure_characterization (store : List (κ × Node κ α)) (p : List κ) :
    (∀ k, getitem store p = .error (.keyError k) ↔ descentFailsWith (.branch store) p k)
    ∧ (∀ e, getitem store p = .error e → ∃ k, e = .keyError k)
    ∧ ((¬∃ k, descentFailsWith (.branch store) p k) → ∃ v, getitem store p = .ok v) := by
  refine ⟨?_, ?_, ?_⟩
  · intro k
    exact (getitem_err_iff store p _).trans (loop_err_iff p _ k)
  · intro e he
    cases e with
    | keyError k => exact ⟨k, rfl⟩
    | indexError =>
      exact absurd ((getitem_err_iff store p _).mp he) (loop_no_indexError p _)
  · intro hno
    cases hget : getitem store p with
    | ok v => exact ⟨v, rfl⟩
    | error e =>
      cases e with
      | keyError k =>
        exact absurd ⟨k, ((getitem_err_iff store p _).trans (loop_err_iff p _ k)).mp hget⟩ hno
      | indexError =>
        exact absurd ((getitem_err_iff store p _).mp hget) (loop_no_indexError p _)

/-- Witness for C5 at a concrete input: no failure point on the path,
so `get` returns a value. -/
theorem get_failure_characterization_witness :
    ∃ v, getitem ([(1, Node.leaf 2)] : List (Nat × Node Nat Nat)) [1] = .ok v :=
  (get_failure_characterization [(1, Node.leaf 2)] [1]).2.2
    (by simp [descentFailsWith, alookup])

theorem recursIter_append (p : List κ) :
    ∀ (a b : List (κ × Node κ α)),
      recursIter (a ++ b) p = recursIter a p ++ recursIter b p := by
  intro a
  induction a with
  | nil => intro b; simp [recursIter]
  | cons kv rest ih =>
    intro b
    obtain ⟨k, v⟩ := kv
    cases v with
    | branch l => simp [recursIter, ih]
    | leaf x => simp [recursIter, ih]
    | pd l => simp [recursIter, ih]

/-- Claim C9: a value that is itself a PlaneDict instance is descended
through by `get` exactly as if it were a raw dict (modulo the facade
wrapping of dict results, which `getitem` applies at the top anyway),
while iteration treats the same stored facade as a single opaque leaf:
it contributes exactly one path and its contents are never entered. -/
theorem stored_facade_branch_for_get_leaf_for_iter :
    (∀ (d : List (Nat × Node Nat Nat)) (k : Nat) (l : List (Nat × Node Nat Nat))
       (rest : List Nat),
       getitem (aset k (.pd l) d) (k :: rest) = getitem (aset k (.branch l) d) (k :: rest))
    ∧ (∀ (d₁ d₂ : List (Nat × Node Nat Nat)) (k : Nat) (l : List (Nat × Node Nat Nat))
       (p : List Nat),
       recursIter (d₁ ++ (k, Node.pd l) :: d₂) p =
         recursIter d₁ p ++ (p ++ [k]) :: recursIter d₂ p) := by
  constructor
  · intro d k l rest
    unfold getitem
    simp only [getitemLoop, alookup_aset_self]
    exact wrapLoop_pd_branch rest l
  · intro d₁ d₂ k l p
    rw [recursIter_append]
    simp [recursIter]

end GetDescent

/-! ## Delete pruning (C2) -/

section DeletePrune

variable {κ α : Type} [DecidableEq κ]

theorem wfL_to_nodupA (l : List (κ × Node κ α)) (h : wfL l = true) :
    nodupA l = true := by
  induction l with
  | nil => rfl
  | cons kv rest ih =>
    obtain ⟨k, v⟩ := kv
    simp only [wfL, Bool.and_eq_true] at h
    simp only [nodupA, Bool.and_eq_true]
    exact ⟨h.1.1, ih h.2⟩

theorem wfL_alookup {l : List (κ × Node κ α)} {k : κ} {v : Node κ α}
    (hwf : wfL l = true) (h : alookup k l = some v) : wfN v = true := by
  induction l with
  | nil => simp [alookup] at h
  | cons kv rest ih =>
    obtain ⟨k₀, w⟩ := kv
    simp only [wfL, Bool.and_eq_true] at hwf
    simp only [alookup] at h
    split at h
    · cases h
      exact hwf.1.2
    · exact ih hwf.2 h

theorem wfL_aset {l : List (κ × Node κ α)} (k : κ) {v : Node κ α}
    (hwf : wfL l = true) (hv : wfN v = true) : wfL (aset k v l) = true := by
  induction l with
  | nil => simp [aset, wfL, alookup, hv]
  | cons kv rest ih =>
    obtain ⟨k₀, w⟩ := kv
    simp only [wfL, Bool.and_eq_true] at hwf
    by_cases h0 : k = k₀
    · subst h0
      simp only [aset, if_pos rfl, wfL, Bool.and_eq_true]
      exact ⟨⟨hwf.1.1, hv⟩, hwf.2⟩
    · simp only [aset, if_neg h0, wfL, Bool.and_eq_true]
      refine ⟨⟨?_, hwf.1.2⟩, ih hwf.2⟩
      rw [alookup_aset_ne (fun he => h0 he.symm)]
      exact hwf.1.1

theorem wfL_adel {l : List (κ × Node κ α)} (k : κ) (hwf : wfL l = true) :
    wfL (adel k l) = true := by
  induction l with
  | nil => simp [adel, wfL]
  | cons kv rest ih =>
    obtain ⟨k₀, w⟩ := kv
    simp only [wfL, Bool.and_eq_true] at hwf
    by_cases h0 : k = k₀
    · subst h0
      simp only [adel, if_pos rfl]
      exact hwf.2
    · simp only [adel, if_neg h0, wfL, Bool.and_eq_true]
      refine ⟨⟨?_, hwf.1.2⟩, ih hwf.2⟩
      by_cases hs : (alookup k₀ (adel k rest)).isSome = true
      · have hcontra := alookup_isSome_adel k₀ k rest hs
        rw [hcontra] at hwf
        simp at hwf
      · simpa using hs

theorem aset_ne_nil (k : κ) (v : Node κ α) (l : List (κ × Node κ α)) :
    aset k v l ≠ [] := by
  cases l with
  | nil => simp [aset]
  | cons kv rest =>
    obtain ⟨k₀, w⟩ := kv
    by_cases h0 : k = k₀ <;> simp [aset, h0]

theorem remove_key_ok_shape {d d' : Node κ α} {p : List κ} {b : Bool}
    (h : remove_key d p = (d', .ok b)) :
    ∃ c c', d = .branch c ∧ d' = .branch c' := by
  cases p with
  | nil => simp [remove_key] at h
  | cons k tail =>
    cases d with
    | leaf a => cases tail <;> simp [remove_key] at h
    | pd l => cases tail <;> simp [remove_key] at h
    | branch l =>
      refine ⟨l, ?_⟩
      cases tail with
      | nil =>
        simp only [remove_key] at h
        split at h
        · simp only [Prod.mk.injEq] at h
          exact ⟨adel k l, rfl, h.1.symm⟩
        · simp at h
      | cons p₁ p₂ =>
        simp only [remove_key] at h
        split at h
        · rename_i child halk
          split at h
          · simp at h
          · simp only [Prod.mk.injEq] at h
            exact ⟨_, rfl, h.1.symm⟩
          · simp only [Prod.mk.injEq] at h
            exact ⟨_, rfl, h.1.symm⟩
        · simp at h

theorem remove_key_prune (p : List κ) :
    ∀ (l l' : List (κ × Node κ α)) (b : Bool), wfL l = true →
      remove_key (.branch l) p = (.branch l', .ok b) →
      wfL l' = true ∧ (b = true ↔ l' = []) ∧
      (∀ q, q ≠ [] → q.length < p.length → prefB q p = true →
        ∀ m, nodeAt (.branch l') q = some (.branch m) → m ≠ []) := by
  induction p with
  | nil => intro l l' b _ h; simp [remove_key] at h
  | cons k tail ih =>
    intro l l' b hwf h
    cases tail with
    | nil =>
      simp only [remove_key] at h
      split at h
      · rename_i v halk
        simp only [Prod.mk.injEq, Node.branch.injEq, Except.ok.injEq] at h
        obtain ⟨h1, h2⟩ := h
        subst h1
        subst h2
        refine ⟨wfL_adel k hwf, by simp [List.isEmpty_iff], ?_⟩
        intro q hq hlen
        cases q with
        | nil => exact absurd rfl hq
        | cons a as => simp at hlen
      · simp at h
    | cons p₁ p₂ =>
      simp only [remove_key] at h
      split at h
      · rename_i child halk
        split at h
        · simp at h
        · -- the recursive call emptied the child: it is deleted here
          rename_i child2 hrec
          simp only [Prod.mk.injEq, Node.branch.injEq, Except.ok.injEq] at h
          obtain ⟨h1, h2⟩ := h
          subst h1
          subst h2
          obtain ⟨c, c', hc, hc'⟩ := remove_key_ok_shape hrec
          subst hc
          subst hc'
          have hwfc : wfL c = true := wfL_alookup hwf halk
          have hchild := ih c c' true hwfc hrec
          have hnodup_aset : nodupA (aset k (Node.branch c') l) = true :=
            nodupA_aset k _ (wfL_to_nodupA l hwf)
          refine ⟨wfL_adel k (wfL_aset k hwf hchild.1),
            by simp [List.isEmpty_iff], ?_⟩
          intro q hq hlen hpref m hm
          cases q with
          | nil => exact absurd rfl hq
          | cons a as =>
            simp only [prefB, Bool.and_eq_true, decide_eq_true_eq] at hpref
            cases hpref.1
            simp only [nodeAt, alookup_adel_self k _ hnodup_aset] at hm
            exact Option.noConfusion hm
        · -- the child did not empty: only the write-back happens here
          rename_i child2 hrec
          simp only [Prod.mk.injEq, Node.branch.injEq, Except.ok.injEq] at h
          obtain ⟨h1, h2⟩ := h
          subst h1
          obtain ⟨c, c', hc, hc'⟩ := remove_key_ok_shape hrec
          subst hc
          subst hc'
          have hwfc : wfL c = true := wfL_alookup hwf halk
          have hchild := ih c c' false hwfc hrec
          refine ⟨wfL_aset k hwf hchild.1, ?_, ?_⟩
          · simp [← h2, aset_ne_nil]
          · intro q hq hlen hpref m hm
            cases q with
            | nil => exact absurd rfl hq
            | cons a as =>
              simp only [prefB, Bool.and_eq_true, decide_eq_true_eq] at hpref
              cases hpref.1
              simp only [nodeAt, alookup_aset_self] at hm
              cases as with
              | nil =>
                simp only [nodeAt, Option.some.injEq, Node.branch.injEq] at hm
                subst hm
                intro hnil
                exact absurd (hchild.2.1.mpr hnil) (by simp)
              | cons a' as' =>
                simp only [List.length_cons, Nat.add_lt_add_iff_right] at hlen
                exact hchild.2.2 (a' :: as') (by simp) (by simpa using hlen)
                  hpref.2 m hm
      · simp at h

/-- Claim C2: after a successful delete, no empty dict remains reachable
from the root along the deleted path's proper prefixes — each dict
emptied by the removal is itself removed from its parent, and pruning
stops at the first non-empty ancestor. The root dict itself is never
removed (the top-level `remove_key` return value is discarded); it may
only become empty in place. -/
theorem delete_prunes_empty_ancestors (store : List (κ × Node κ α)) (path : List κ)
    (hwf : wfL store = true) (hok : (delitem store path).2 = none) :
    ∀ q, q ≠ [] → q.length < path.length → prefB q path = true →
      ∀ m, nodeAt (.branch (delitem store path).1) q = some (.branch m) → m ≠ [] := by
  intro q hq hlen hpref m hm
  unfold delitem at hok hm
  cases hrk : remove_key (Node.branch store) path with
  | mk d' r =>
    rw [hrk] at hok hm
    cases r with
    | error e =>
      cases d' with
      | branch l => simp at hok
      | leaf a => simp at hok
      | pd l => simp at hok
    | ok b =>
      obtain ⟨c, c', hc, hc'⟩ := remove_key_ok_shape hrk
      cases hc
      subst hc'
      exact (remove_key_prune path store c' b hwf hrk).2.2 q hq hlen hpref m hm

/-- Witness for C2 at a concrete input: deleting the leaf at (1, 2)
leaves the ancestor dict at key 1 non-empty (it still holds key 4), so
it is not pruned and is indeed non-empty. -/
theorem delete_prunes_empty_ancestors_witness :
    ([(4, Node.leaf 9)] : List (Nat × Node Nat Nat)) ≠ [] :=
  delete_prunes_empty_ancestors
    [(1, Node.branch [(2, Node.leaf 7), (4, Node.leaf 9)])] [1, 2]
    (by simp [wfL, wfN, alookup]) (by simp [delitem, remove_key, alookup, adel, aset])
    [1] (by simp) (by simp) (by simp [prefB]) [(4, Node.leaf 9)]
    (by simp [delitem, remove_key, alookup, adel, aset, nodeAt])

end DeletePrune

/-! ## Path normalization (C4) and the empty normalized path (C7) -/

section Normalization

theorem seq_iter_eq_specFlatList : ∀ l, seq_iter l = specFlatList l := by
  intro l
  induction l using seq_iter.induct with
  | case1 => simp [seq_iter, specFlatList]
  | case2 l rest ih1 ih2 => simp [seq_iter, specFlatList, specFlatElem, ih1, ih2]
  | case3 p rest hne ih =>
    have hel : specFlatElem p = [p] := by
      cases p with
      | iter l => exact absurd rfl (hne l)
      | str s => rfl
      | num n => rfl
      | noneV => rfl
      | tup l => rfl
    simp [seq_iter, specFlatList, hel, ih]

/-- Claim C4: `__check_path__` computes exactly the left-to-right
depth-first flattening described by the spec: an atomic scalar yields
the one-key path; inside an iterable, elements that are iterable and
neither strings nor tuples are recursed into with their results spliced
in order, everything else (strings, tuples, numbers, None) is appended
as a single key. The third conjunct is the module docstring's example:
`__check_path__((1, [2, [3]], 4, (5, 6), (i for i in [7, 8])))`
evaluates to `(1, 2, 3, 4, (5, 6), 7, 8)`. -/
theorem check_path_flattens_depth_first :
    (∀ spec, check_path spec = specNormalize spec)
    ∧ (∀ l, seq_iter l = l.flatMap specFlatElem)
    ∧ check_path (.tup [.num 1, .iter [.num 2, .iter [.num 3]], .num 4,
        .tup [.num 5, .num 6], .iter [.num 7, .num 8]])
      = [.num 1, .num 2, .num 3, .num 4, .tup [.num 5, .num 6], .num 7, .num 8] := by
  have hflat : ∀ l, specFlatList l = l.flatMap specFlatElem := by
    intro l
    induction l with
    | nil => rfl
    | cons p rest ih => simp [specFlatList, ih]
  refine ⟨?_, ?_, ?_⟩
  · intro spec
    cases spec <;> simp [check_path, specNormalize, seq_iter_eq_specFlatList]
  · intro l
    rw [seq_iter_eq_specFlatList, hflat]
  · simp [check_path, seq_iter]

/-- Counterexample to claim C7 as stated: normalization does not reject
an empty result (`__check_path__` has no failure path at all), and
`get` with a path specification that normalizes to the empty key
sequence does not fail — it returns a facade over the whole store.
`set` and `delete` do fail, but with IndexError from `p[0]`, not with a
path-validation error. -/
theorem empty_path_not_rejected_counterexample :
    check_path (.iter []) = []
    ∧ pdGetFull [(PSpec.str "a", Node.leaf 0)] (.iter [])
        = .ok (.pd [(PSpec.str "a", Node.leaf 0)])
    ∧ (pdSetFull [(PSpec.str "a", Node.leaf 0)] (.iter []) (.leaf 1)).2
        = some .indexError
    ∧ (pdDelFull [(PSpec.str "a", Node.leaf 0)] (.iter [])).2 = some .indexError := by
  have hcp : check_path (.iter []) = [] := by simp [check_path, seq_iter]
  refine ⟨hcp, ?_, ?_, ?_⟩ <;>
    simp [pdGetFull, pdSetFull, pdDelFull, hcp, getitem, getitemLoop, setitem,
      set_key, delitem, remove_key, wrapTop, Except.map]

/-- Claim C7, amended: when normalization yields an empty key sequence,
no operation fails with a path-validation error (none exists):
`get` succeeds, returning a facade over the whole store, while `set`
and `delete` raise IndexError (from `p[0]` on the empty tuple) before
touching the store, which is returned unchanged. -/
theorem empty_normalized_path_behavior {α : Type}
    (store : List (PSpec × Node PSpec α)) (spec : PSpec)
    (h : check_path spec = []) (v : Node PSpec α) :
    pdGetFull store spec = .ok (.pd store)
    ∧ pdSetFull store spec v = (store, some .indexError)
    ∧ pdDelFull store spec = (store, some .indexError) := by
  unfold pdGetFull pdSetFull pdDelFull
  rw [h]
  exact ⟨rfl, rfl, rfl⟩

/-- Witness for C7 (amended) at a concrete input. -/
theorem empty_normalized_path_behavior_witness :
    pdGetFull [(PSpec.str "a", Node.leaf 0)] (.iter [])
        = .ok (.pd [(PSpec.str "a", Node.leaf 0)])
    ∧ pdSetFull [(PSpec.str "a", Node.leaf 0)] (.iter []) (.leaf 1)
        = ([(PSpec.str "a", Node.leaf 0)], some .indexError)
    ∧ pdDelFull [(PSpec.str "a", Node.leaf 0)] (.iter [])
        = ([(PSpec.str "a", Node.leaf 0)], some .indexError) :=
  empty_normalized_path_behavior [(PSpec.str "a", Node.leaf 0)] (.iter [])
    (by simp [check_path, seq_iter]) (.leaf 1)

end Normalization

/-! ## Facade aliasing: shallow copy, not a live view (C8) -/

section HeapFacade

/-- Counterexample to claim C8 as stated: over the heap
`0 ↦ {a: ref 1}, 1 ↦ {b: ref 2}, 2 ↦ {c: 1}`, `get(root, ["a"])`
returns a facade over the freshly allocated cell 3 holding a shallow
copy of cell 1. Setting key "z" through that facade succeeds and is
visible through the facade itself, but is invisible through the parent:
`get(root, ["a", "z"])` still fails — the facade does not share the
underlying dict, contradicting the claimed live view. -/
theorem get_facade_not_live_view_counterexample :
    getitemH (⟨[(0, [("a", .ref 1)]), (1, [("b", .ref 2)]), (2, [("c", .leaf 1)])], 3⟩ :
        Heap String Nat) 0 ["a"]
      = .ok (⟨[(0, [("a", .ref 1)]), (1, [("b", .ref 2)]), (2, [("c", .leaf 1)]),
          (3, [("b", .ref 2)])], 4⟩, .facade 3)
    ∧ (hSetKey (.leaf 5)
        (⟨[(0, [("a", .ref 1)]), (1, [("b", .ref 2)]), (2, [("c", .leaf 1)]),
          (3, [("b", .ref 2)])], 4⟩ : Heap String Nat) 3 ["z"]).2 = none
    ∧ (getitemH (hSetKey (.leaf 5)
        (⟨[(0, [("a", .ref 1)]), (1, [("b", .ref 2)]), (2, [("c", .leaf 1)]),
          (3, [("b", .ref 2)])], 4⟩ : Heap String Nat) 3 ["z"]).1 3 ["z"]).map Prod.snd
      = .ok (.val 5)
    ∧ getitemH (hSetKey (.leaf 5)
        (⟨[(0, [("a", .ref 1)]), (1, [("b", .ref 2)]), (2, [("c", .leaf 1)]),
          (3, [("b", .ref 2)])], 4⟩ : Heap String Nat) 3 ["z"]).1 0 ["a", "z"]
      = .error (.keyError "z") :=
  ⟨rfl, rfl, rfl, rfl⟩

/-- Claim C8, amended: `get` on a path resolving to a Branch returns a
facade over a fresh shallow copy of that Branch (a new dict holding the
same entries). Mutations that add or replace top-level entries of the
returned facade are not visible through the parent, while mutations
inside nested Branches — which the shallow copy shares by reference —
are visible through both. -/
theorem get_facade_shallow_copy (v0 w : Nat) :
    getitemH (⟨[(0, [("a", .ref 1)]), (1, [("b", .ref 2)]), (2, [("c", .leaf v0)])], 3⟩ :
        Heap String Nat) 0 ["a"]
      = .ok (⟨[(0, [("a", .ref 1)]), (1, [("b", .ref 2)]), (2, [("c", .leaf v0)]),
          (3, [("b", .ref 2)])], 4⟩, .facade 3)
    ∧ (getitemH (hSetKey (.leaf w)
        (⟨[(0, [("a", .ref 1)]), (1, [("b", .ref 2)]), (2, [("c", .leaf v0)]),
          (3, [("b", .ref 2)])], 4⟩ : Heap String Nat) 3 ["b", "c"]).1
        0 ["a", "b", "c"]).map Prod.snd = .ok (.val w)
    ∧ getitemH (hSetKey (.leaf w)
        (⟨[(0, [("a", .ref 1)]), (1, [("b", .ref 2)]), (2, [("c", .leaf v0)]),
          (3, [("b", .ref 2)])], 4⟩ : Heap String Nat) 3 ["z"]).1 0 ["a", "z"]
      = .error (.keyError "z") :=
  ⟨rfl, rfl, rfl⟩

end HeapFacade

/-! ## Update semantics (C3) -/

section UpdateSemantics

variable {κ α : Type} [DecidableEq κ]

theorem prefB_iff_append (p : List κ) :
    ∀ q, prefB p q = true ↔ ∃ r, q = p ++ r := by
  induction p with
  | nil => intro q; simp [prefB]
  | cons a p' ih =>
    intro q
    cases q with
    | nil => simp [prefB]
    | cons b q' =>
      simp only [prefB, Bool.and_eq_true, decide_eq_true_eq, ih]
      constructor
      · rintro ⟨rfl, r, rfl⟩
        exact ⟨r, rfl⟩
      · rintro ⟨r, hr⟩
        injection hr with h1 h2
        exact ⟨h1.symm, r, h2⟩

theorem nodeAt_append (p : List κ) :
    ∀ (q : List κ) (n : Node κ α),
      nodeAt n (p ++ q) = (nodeAt n p).bind (fun m => nodeAt m q) := by
  induction p with
  | nil => intro q n; simp [nodeAt]
  | cons a p' ih =>
    intro q n
    cases n with
    | leaf x => simp [nodeAt]
    | pd l => simp [nodeAt]
    | branch l =>
      simp only [List.cons_append, nodeAt]
      cases alookup a l with
      | none => simp
      | some m => simp [ih]

theorem nodeAt_nonbranch {v : Node κ α} (hv : isBranchB v = false) (r : List κ)
    (hr : r ≠ []) : nodeAt v r = none := by
  cases r with
  | nil => exact absurd rfl hr
  | cons a r' => cases v with
    | leaf x => rfl
    | pd l => rfl
    | branch l => simp [isBranchB] at hv

theorem nodeAt_set_key_self (v : Node κ α) :
    ∀ (p : List κ), p ≠ [] → ∀ d, nodeAt (.branch (set_key v d p).1) p = some v := by
  intro p
  induction p with
  | nil => intro h; exact absurd rfl h
  | cons k tail ih =>
    intro _ d
    cases tail with
    | nil => simp [set_key, nodeAt, alookup_aset_self]
    | cons p₁ p₂ =>
      have ihr := ih (by simp)
        (match alookup k d with
         | some (.branch s) => s
         | _ => [])
      simp only [set_key, nodeAt, alookup_aset_self]
      exact ihr

theorem getitemLoop_of_nodeAt (p : List κ) :
    ∀ (n : Node κ α) (v : Node κ α), nodeAt n p = some v →
      getitemLoop n p = .ok v := by
  induction p with
  | nil =>
    intro n v h
    simp only [nodeAt, Option.some.injEq] at h
    subst h
    cases n <;> rfl
  | cons a p' ih =>
    intro n v h
    cases n with
    | leaf x => simp [nodeAt] at h
    | pd l => simp [nodeAt] at h
    | branch l =>
      simp only [nodeAt] at h
      simp only [getitemLoop]
      cases halk : alookup a l with
      | none => rw [halk] at h; cases h
      | some m =>
        rw [halk] at h
        exact ih m v h

theorem getitem_of_nodeAt {d : List (κ × Node κ α)} {p : List κ} {v : Node κ α}
    (h : nodeAt (.branch d) p = some v) (hv : isBranchB v = false) :
    getitem d p = .ok v := by
  unfold getitem
  rw [getitemLoop_of_nodeAt p _ v h]
  simp [Except.map, wrapTop_nonbranch hv]

theorem nodeAt_branch_nil (p : List κ) (hp : p ≠ []) :
    nodeAt (Node.branch ([] : List (κ × Node κ α))) p = none := by
  cases p with
  | nil => exact absurd rfl hp
  | cons a p' => simp [nodeAt, alookup]

theorem set_key_preserves (v : Node κ α) :
    ∀ (q p : List κ) (d : List (κ × Node κ α)),
      prefB p q = false → prefB q p = false →
      nodeAt (.branch (set_key v d q).1) p = nodeAt (.branch d) p := by
  intro q
  induction q with
  | nil => intro p d hpq hqp; simp [prefB] at hqp
  | cons k qtail ih =>
    intro p d hpq hqp
    cases p with
    | nil => simp [prefB] at hpq
    | cons a p' =>
      by_cases hak : a = k
      · subst hak
        simp only [prefB, Bool.and_eq_true, decide_eq_true_eq] at hpq hqp
        have hpq' : prefB p' qtail = false := by
          cases hx : prefB p' qtail
          · rfl
          · rw [hx] at hpq; simp at hpq
        have hqp' : prefB qtail p' = false := by
          cases hx : prefB qtail p'
          · rfl
          · rw [hx] at hqp; simp at hqp
        cases qtail with
        | nil => simp [prefB] at hqp'
        | cons q₁ q₂ =>
          have hp'ne : p' ≠ [] := by
            intro hnil
            rw [hnil] at hpq'
            simp [prefB] at hpq'
          cases halk : alookup a d with
          | none =>
            have hnew := ih p' [] hpq' hqp'
            simp only [nodeAt] at hnew
            simp only [set_key, halk, nodeAt, alookup_aset_self]
            rw [hnew]
            exact nodeAt_branch_nil p' hp'ne
          | some w =>
            cases w with
            | branch s =>
              have hnew := ih p' s hpq' hqp'
              simp only [nodeAt] at hnew
              simp only [set_key, halk, nodeAt, alookup_aset_self]
              rw [hnew]
            | leaf x =>
              have hnew := ih p' [] hpq' hqp'
              simp only [nodeAt] at hnew
              simp only [set_key, halk, nodeAt, alookup_aset_self]
              rw [hnew, nodeAt_nonbranch (v := Node.leaf x) rfl p' hp'ne]
              exact nodeAt_branch_nil p' hp'ne
            | pd m =>
              have hnew := ih p' [] hpq' hqp'
              simp only [nodeAt] at hnew
              simp only [set_key, halk, nodeAt, alookup_aset_self]
              rw [hnew, nodeAt_nonbranch (v := Node.pd m) rfl p' hp'ne]
              exact nodeAt_branch_nil p' hp'ne
      · cases qtail with
        | nil =>
          simp only [set_key, nodeAt, alookup_aset_ne hak]
        | cons q₁ q₂ =>
          simp only [set_key, nodeAt, alookup_aset_ne hak]

theorem fold_preserves (src : List (κ × Node κ α)) :
    ∀ (S : List (List κ)) (acc : List (κ × Node κ α)) (r : List κ),
      (∀ p ∈ S, prefB r p = false ∧ prefB p r = false) →
      nodeAt (.branch (S.foldl (updStep src) acc)) r = nodeAt (.branch acc) r := by
  intro S
  induction S with
  | nil => intro acc r _; rfl
  | cons p0 rest ih =>
    intro acc r hov
    simp only [List.foldl_cons]
    rw [ih _ r (fun p hp => hov p (List.mem_cons_of_mem _ hp))]
    unfold updStep
    cases hg : getitem src p0 with
    | error e => rfl
    | ok v =>
      exact set_key_preserves v p0 r acc
        (hov p0 (List.mem_cons_self _ _)).1 (hov p0 (List.mem_cons_self _ _)).2

theorem fold_sticks (src : List (κ × Node κ α)) :
    ∀ (S : List (List κ)) (acc : List (κ × Node κ α)),
      (∀ p1 ∈ S, ∀ p2 ∈ S, p1 = p2 ∨ (prefB p1 p2 = false ∧ prefB p2 p1 = false)) →
      (∀ p ∈ S, p ≠ []) →
      ∀ p ∈ S, ∀ v, getitem src p = .ok v →
        nodeAt (.branch (S.foldl (updStep src) acc)) p = some v := by
  intro S
  induction S with
  | nil => intro acc _ _ p hp; simp at hp
  | cons p0 rest ih =>
    intro acc hpair hne p hp v hv
    simp only [List.foldl_cons]
    rcases List.mem_cons.mp hp with rfl | hpr
    · by_cases hin : p ∈ rest
      · exact ih _ (fun a ha b hb =>
          hpair a (List.mem_cons_of_mem _ ha) b (List.mem_cons_of_mem _ hb))
          (fun a ha => hne a (List.mem_cons_of_mem _ ha)) p hin v hv
      · rw [fold_preserves src rest (updStep src acc p) p ?hov]
        case hov =>
          intro q hq
          rcases hpair p (List.mem_cons_self _ _) q (List.mem_cons_of_mem _ hq)
            with rfl | hok
          · exact absurd hq hin
          · exact hok
        unfold updStep
        rw [hv]
        exact nodeAt_set_key_self v p (hne p (List.mem_cons_self _ _)) acc
    · exact ih _ (fun a ha b hb =>
        hpair a (List.mem_cons_of_mem _ ha) b (List.mem_cons_of_mem _ hb))
        (fun a ha => hne a (List.mem_cons_of_mem _ ha)) p hpr v hv

theorem nodeAt_cons_skip {k : κ} {w : Node κ α} {rest : List (κ × Node κ α)}
    (hk : (alookup k rest).isSome = false) :
    ∀ (p : List κ) (v : Node κ α), p ≠ [] →
      nodeAt (.branch rest) p = some v →
      nodeAt (.branch ((k, w) :: rest)) p = some v := by
  intro p v hp h
  cases p with
  | nil => exact absurd rfl hp
  | cons a p' =>
    simp only [nodeAt] at h ⊢
    cases halk : alookup a rest with
    | none => rw [halk] at h; cases h
    | some m =>
      rw [halk] at h
      have hane : a ≠ k := by
        intro he
        subst he
        rw [halk] at hk
        simp at hk
      simp only [alookup, if_neg hane]
      rw [halk]
      exact h

theorem recursIter_resolves :
    ∀ (d : List (κ × Node κ α)) (pre : List κ), wfL d = true →
      ∀ x ∈ recursIter d pre, ∃ p, x = pre ++ p ∧ p ≠ [] ∧
        ∃ v, nodeAt (.branch d) p = some v ∧ isBranchB v = false := by
  intro d pre
  induction d, pre using recursIter.induct with
  | case1 p => intro _ x hx; simp [recursIter] at hx
  | case2 k l rest p ih1 ih2 =>
    intro hwf x hx
    simp only [wfL, wfN, Bool.and_eq_true, Bool.not_eq_true'] at hwf
    simp only [recursIter, List.mem_append] at hx
    rcases hx with hx | hx
    · obtain ⟨p', hxp, hp'ne, v, hv, hvb⟩ := ih1 hwf.1.2 x hx
      refine ⟨k :: p', by simp [hxp], by simp, v, ?_, hvb⟩
      simp [nodeAt, alookup]
      exact hv
    · obtain ⟨p', hxp, hp'ne, v, hv, hvb⟩ := ih2 hwf.2 x hx
      exact ⟨p', hxp, hp'ne, v, nodeAt_cons_skip hwf.1.1 p' v hp'ne hv, hvb⟩
  | case3 k w rest p hwne ih =>
    intro hwf x hx
    simp only [wfL, Bool.and_eq_true, Bool.not_eq_true'] at hwf
    simp only [recursIter, List.mem_cons] at hx
    rcases hx with rfl | hx
    · refine ⟨[k], rfl, by simp, w, ?_, ?_⟩
      · simp [nodeAt, alookup]
      · cases w with
        | branch l => exact absurd rfl (hwne l)
        | leaf a => rfl
        | pd l => rfl
    · obtain ⟨p', hxp, hp'ne, v, hv, hvb⟩ := ih hwf.2 x hx
      exact ⟨p', hxp, hp'ne, v, nodeAt_cons_skip hwf.1.1 p' v hp'ne hv, hvb⟩

theorem iterPaths_resolve {src : List (κ × Node κ α)} (hwf : wfL src = true) :
    ∀ p ∈ iterPaths src, p ≠ [] ∧
      ∃ v, nodeAt (.branch src) p = some v ∧ isBranchB v = false := by
  intro p hp
  obtain ⟨p', hxp, hne, v, hv, hvb⟩ := recursIter_resolves src [] hwf p hp
  simp only [List.nil_append] at hxp
  subst hxp
  exact ⟨hne, v, hv, hvb⟩

theorem iterPaths_nonoverlap {src : List (κ × Node κ α)} (hwf : wfL src = true) :
    ∀ p1 ∈ iterPaths src, ∀ p2 ∈ iterPaths src,
      p1 = p2 ∨ (prefB p1 p2 = false ∧ prefB p2 p1 = false) := by
  have key : ∀ p1 ∈ iterPaths src, ∀ p2 ∈ iterPaths src, p1 ≠ p2 →
      prefB p1 p2 = false := by
    intro p1 h1 p2 h2 hne
    cases hpb : prefB p1 p2
    · rfl
    · obtain ⟨r, hr⟩ := (prefB_iff_append p1 p2).mp hpb
      have hrne : r ≠ [] := by
        intro hnil
        rw [hnil, List.append_nil] at hr
        exact hne hr.symm
      obtain ⟨_, v1, hv1, hb1⟩ := iterPaths_resolve hwf p1 h1
      obtain ⟨_, v2, hv2, _⟩ := iterPaths_resolve hwf p2 h2
      have hnone := nodeAt_nonbranch hb1 r hrne
      rw [hr, nodeAt_append, hv1] at hv2
      simp [hnone] at hv2
  intro p1 h1 p2 h2
  by_cases he : p1 = p2
  · exact Or.inl he
  · exact Or.inr ⟨key p1 h1 p2 h2 he, key p2 h2 p1 h1 (fun h => he h.symm)⟩

theorem updateFromRaw_lookup :
    ∀ (raw t : List (κ × Node κ α)), nodupA raw = true →
      ∀ k, alookup k (updateFromRaw t raw) =
        match alookup k raw with
        | some v => some v
        | none => alookup k t := by
  intro raw
  induction raw with
  | nil => intro t _ k; simp [updateFromRaw, alookup]
  | cons kv rest ih =>
    intro t hnd k
    obtain ⟨k0, v0⟩ := kv
    simp only [nodupA, Bool.and_eq_true, Bool.not_eq_true'] at hnd
    have hstep : updateFromRaw t ((k0, v0) :: rest)
        = updateFromRaw (aset k0 v0 t) rest := by
      simp [updateFromRaw, set_key]
    rw [hstep, ih (aset k0 v0 t) hnd.2 k]
    by_cases h0 : k = k0
    · subst h0
      have hkr : alookup k rest = none := by
        cases hx : alookup k rest
        · rfl
        · rw [hx] at hnd; simp at hnd
      simp [alookup, hkr, alookup_aset_self]
    · simp only [alookup, if_neg h0]
      cases alookup k rest with
      | some v => simp
      | none => simp [alookup_aset_ne h0]

/-- Claim C3: `update` has two distinct semantics. With a PlaneDict
source it is a deep soft merge — every leaf (path, value) of the source
is set into the target, so after the update each source leaf path reads
back exactly as it does from the source, while target values at paths
that overlap no source leaf path are untouched (intermediate dicts are
created as needed by `set_key`). With a raw (non-facade) mapping it is
the shallow top-level update of the underlying dict: each top-level key
of the source replaces the whole corresponding top-level entry of the
target, and nothing below the top level is merged. -/
theorem update_two_semantics :
    (∀ (t src : List (κ × Node κ α)), wfL src = true →
      ∀ p ∈ iterPaths src,
        (∃ v, getitem src p = .ok v) ∧
        getitem (updateFromPd t src) p = getitem src p)
    ∧ (∀ (t src : List (κ × Node κ α)), wfL src = true →
      ∀ p v, nodeAt (.branch t) p = some v → p ≠ [] →
        (∀ q ∈ iterPaths src, prefB p q = false ∧ prefB q p = false) →
        nodeAt (.branch (updateFromPd t src)) p = some v)
    ∧ (∀ (t raw : List (κ × Node κ α)), nodupA raw = true →
      ∀ k, alookup k (updateFromRaw t raw) =
        match alookup k raw with
        | some v => some v
        | none => alookup k t) := by
  refine ⟨?_, ?_, ?_⟩
  · intro t src hwf p hp
    obtain ⟨hne, v, hv, hvb⟩ := iterPaths_resolve hwf p hp
    have hok : getitem src p = .ok v := getitem_of_nodeAt hv hvb
    refine ⟨⟨v, hok⟩, ?_⟩
    have hstick := fold_sticks src (iterPaths src) t (iterPaths_nonoverlap hwf)
      (fun q hq => (iterPaths_resolve hwf q hq).1) p hp v hok
    rw [hok]
    exact getitem_of_nodeAt hstick hvb
  · intro t src hwf p v hv hne hov
    rw [updateFromPd, fold_preserves src (iterPaths src) t p
      (fun q hq => hov q hq)]
    exact hv
  · exact fun t raw hnd k => updateFromRaw_lookup raw t hnd k

/-- Witness for C3 at concrete inputs: merging the facade over
`{1: {2: 3}}` into the target `{1: {4: 5}}` keeps the target leaf at
(1, 4) and makes (1, 2) read back as 3; updating with the same source
as a raw mapping replaces the whole top-level entry at key 1. -/
theorem update_two_semantics_witness :
    getitem (updateFromPd [(1, Node.branch [(4, Node.leaf 5)])]
        [(1, Node.branch [(2, Node.leaf 3)])]) [1, 2]
      = getitem [(1, Node.branch [(2, Node.leaf 3)])] [1, 2]
    ∧ nodeAt (.branch (updateFromPd [(1, Node.branch [(4, Node.leaf 5)])]
        [(1, Node.branch [(2, Node.leaf 3)])])) [1, 4] = some (Node.leaf 5)
    ∧ alookup 1 (updateFromRaw [(1, Node.branch [(4, Node.leaf 5)])]
        ([(1, Node.branch [(2, Node.leaf 3)])] : List (Nat × Node Nat Nat)))
      = some (Node.branch [(2, Node.leaf 3)]) := by
  refine ⟨?_, ?_, ?_⟩
  · exact (update_two_semantics.1 [(1, Node.branch [(4, Node.leaf 5)])]
      [(1, Node.branch [(2, Node.leaf 3)])]
      (by simp [wfL, wfN, alookup])
      [1, 2] (by simp [iterPaths, recursIter])).2
  · exact update_two_semantics.2.1 [(1, Node.branch [(4, Node.leaf 5)])]
      [(1, Node.branch [(2, Node.leaf 3)])]
      (by simp [wfL, wfN, alookup])
      [1, 4] (Node.leaf 5) (by simp [nodeAt, alookup]) (by simp)
      (by
        intro q hq
        simp [iterPaths, recursIter] at hq
        subst hq
        simp [prefB])
  · exact update_two_semantics.2.2 [(1, Node.branch [(4, Node.leaf 5)])]
      [(1, Node.branch [(2, Node.leaf 3)])] (by simp [nodupA, alookup]) 1

end UpdateSemantics

/-! ## Facade equality (C6) -/

section FacadeEquality

theorem alookup_isSome_iff_mem_keys {κ β : Type} [DecidableEq κ] (k : κ)
    (l : List (κ × β)) : (alookup k l).isSome = true ↔ k ∈ l.map Prod.fst := by
  induction l with
  | nil => simp [alookup]
  | cons kv rest ih =>
    obtain ⟨k₀, w⟩ := kv
    by_cases h0 : k = k₀
    · subst h0
      simp [alookup]
    · simp [alookup, h0, ih]

theorem nodupA_iff_nodup_keys {κ β : Type} [DecidableEq κ] (l : List (κ × β)) :
    nodupA l = true ↔ (l.map Prod.fst).Nodup := by
  induction l with
  | nil => simp [nodupA]
  | cons kv rest ih =>
    obtain ⟨k₀, w⟩ := kv
    simp only [nodupA, Bool.and_eq_true, Bool.not_eq_true', List.map_cons,
      List.nodup_cons, ih]
    constructor
    · rintro ⟨h1, h2⟩
      refine ⟨?_, h2⟩
      intro hmem
      rw [(alookup_isSome_iff_mem_keys k₀ rest).mpr hmem] at h1
      cases h1
    · rintro ⟨h1, h2⟩
      refine ⟨?_, h2⟩
      cases hs : (alookup k₀ rest).isSome
      · rfl
      · exact absurd ((alookup_isSome_iff_mem_keys k₀ rest).mp hs) h1

theorem subDict_mem {p q : List (PyK × PyV)} (h : subDict p q = true) :
    ∀ k v, (k, v) ∈ p → ∃ w, alookup k q = some w ∧ pyEq v w = true := by
  induction p with
  | nil => intro k v hm; simp at hm
  | cons kv rest ih =>
    obtain ⟨k₀, v₀⟩ := kv
    rw [subDict] at h
    simp only [Bool.and_eq_true] at h
    intro k v hm
    rcases List.mem_cons.mp hm with he | hm'
    · cases he
      have h1 := h.1
      split at h1
      · rename_i w hw
        exact ⟨w, hw, h1⟩
      · cases h1
    · exact ih h.2 k v hm'

theorem subDict_of_forall {p q : List (PyK × PyV)}
    (h : ∀ k v, (k, v) ∈ p → ∃ w, alookup k q = some w ∧ pyEq v w = true) :
    subDict p q = true := by
  induction p with
  | nil => rw [subDict]
  | cons kv rest ih =>
    obtain ⟨k₀, v₀⟩ := kv
    rw [subDict]
    simp only [Bool.and_eq_true]
    obtain ⟨w, hw, hpy⟩ := h k₀ v₀ (List.mem_cons_self _ _)
    refine ⟨?_, ih (fun k v hm => h k v (List.mem_cons_of_mem _ hm))⟩
    rw [hw]
    exact hpy

theorem dictEq_ext (p q : List (PyK × PyV)) (hp : nodupA p = true)
    (hq : nodupA q = true) :
    ((p.length == q.length && subDict p q) = true ↔
      ∀ k, optPyEqB (alookup k p) (alookup k q) = true) := by
  constructor
  · rintro hall
    simp only [Bool.and_eq_true, beq_iff_eq] at hall
    obtain ⟨hlen, hsub⟩ := hall
    have hmem := subDict_mem hsub
    have hkeys : (p.map Prod.fst) ⊆ (q.map Prod.fst) := by
      intro k hk
      rw [← alookup_isSome_iff_mem_keys] at hk ⊢
      cases hlp : alookup k p with
      | none => rw [hlp] at hk; cases hk
      | some v =>
        obtain ⟨w, hw, _⟩ := hmem k v (alookup_mem hlp)
        rw [hw]
        rfl
    have hperm : (p.map Prod.fst).Perm (q.map Prod.fst) :=
      (List.subperm_of_subset ((nodupA_iff_nodup_keys p).mp hp) hkeys).perm_of_length_le
        (by simp [hlen])
    intro k
    cases hlp : alookup k p with
    | some v =>
      obtain ⟨w, hw, hpy⟩ := hmem k v (alookup_mem hlp)
      rw [hw]
      exact hpy
    | none =>
      have hkq : alookup k q = none := by
        cases hlq : alookup k q with
        | none => rfl
        | some w =>
          have hkmem : k ∈ q.map Prod.fst :=
            (alookup_isSome_iff_mem_keys k q).mp (by rw [hlq]; rfl)
          have : k ∈ p.map Prod.fst := hperm.mem_iff.mpr hkmem
          rw [← alookup_isSome_iff_mem_keys, hlp] at this
          cases this
      rw [hkq]
      rfl
  · intro hext
    have hmemiff : ∀ k, k ∈ p.map Prod.fst ↔ k ∈ q.map Prod.fst := by
      intro k
      rw [← alookup_isSome_iff_mem_keys, ← alookup_isSome_iff_mem_keys]
      have h := hext k
      cases hlp : alookup k p <;> cases hlq : alookup k q <;>
        rw [hlp, hlq] at h <;> simp [optPyEqB] at h ⊢
    have hperm : (p.map Prod.fst).Perm (q.map Prod.fst) :=
      (List.perm_ext_iff_of_nodup ((nodupA_iff_nodup_keys p).mp hp)
        ((nodupA_iff_nodup_keys q).mp hq)).mpr hmemiff
    simp only [Bool.and_eq_true, beq_iff_eq]
    constructor
    · have := hperm.length_eq
      simpa using this
    · refine subDict_of_forall (fun k v hm => ?_)
      have hlp : alookup k p = some v := mem_alookup hp hm
      have h := hext k
      rw [hlp] at h
      cases hlq : alookup k q with
      | none => rw [hlq] at h; simp [optPyEqB] at h
      | some w =>
        rw [hlq] at h
        exact ⟨w, rfl, h⟩

/-- Counterexample to claim C6 as stated: a facade is not always
unequal to a raw mapping. The inherited `Mapping.__eq__` compares
`dict(self)` with `dict(other)`, and for the empty facade and the empty
raw dict both sides are the empty dict, so the comparison returns True. -/
theorem facade_eq_raw_counterexample : pyEq (.pd []) (.dict []) = true := by
  simp [pyEq, flattenP, subDict]

/-- Claim C6, amended: equality between two facades holds iff their
flattened leaf path → value dicts agree as maps (same paths, `==`-equal
values, independent of traversal order); and a facade compared to a raw
(non-facade) mapping is equal exactly when its flattened path → value
dict agrees with the raw mapping as a map — in particular not-equal
whenever the raw mapping is the structurally matching nested store of a
facade with at least one leaf (its keys are not path tuples), but equal
for instance when both are empty. -/
theorem facade_equality_characterization :
    (∀ a b : List (PyK × PyV),
      nodupA (flattenP a []) = true → nodupA (flattenP b []) = true →
      (pyEq (.pd a) (.pd b) = true ↔
        ∀ k, optPyEqB (alookup k (flattenP a [])) (alookup k (flattenP b [])) = true))
    ∧ (∀ (a r : List (PyK × PyV)),
      nodupA (flattenP a []) = true → nodupA r = true →
      (pyEq (.pd a) (.dict r) = true ↔
        ∀ k, optPyEqB (alookup k (flattenP a [])) (alookup k r) = true)) := by
  constructor
  · intro a b ha hb
    rw [show pyEq (.pd a) (.pd b)
        = ((flattenP a []).length == (flattenP b []).length &&
            subDict (flattenP a []) (flattenP b [])) from by rw [pyEq]]
    exact dictEq_ext _ _ ha hb
  · intro a r ha hr
    rw [show pyEq (.pd a) (.dict r)
        = ((flattenP a []).length == r.length && subDict (flattenP a []) r) from by
          rw [pyEq]]
    exact dictEq_ext _ _ ha hr

/-- Witness for C6 (amended) at a concrete input: two facades over the
store `{x: {y: 1}}` are equal, hence their flat dicts agree at the leaf
path (x, y). -/
theorem facade_equality_characterization_witness :
    optPyEqB
      (alookup (PyK.ktup [PyK.kstr "x", PyK.kstr "y"])
        (flattenP [(PyK.kstr "x", PyV.dict [(PyK.kstr "y", PyV.vint 1)])] []))
      (alookup (PyK.ktup [PyK.kstr "x", PyK.kstr "y"])
        (flattenP [(PyK.kstr "x", PyV.dict [(PyK.kstr "y", PyV.vint 1)])] []))
      = true :=
  ((facade_equality_characterization.1
      [(PyK.kstr "x", PyV.dict [(PyK.kstr "y", PyV.vint 1)])]
      [(PyK.kstr "x", PyV.dict [(PyK.kstr "y", PyV.vint 1)])]
      (by simp [flattenP, nodupA, alookup])
      (by simp [flattenP, nodupA, alookup])).mp
    (by simp [pyEq, flattenP, subDict, alookup]))
    (PyK.ktup [PyK.kstr "x", PyK.kstr "y"])

end FacadeEquality

end Planedict

